import Mathlib

/-!
Verification of the MPI heat-equation solver (`heat_solver_mpi-checkpoint.py`)
against its natural-language specification.

The Python source is embedded shallowly: machine floats become exact
rationals (ℚ), numpy arrays with halo become total functions `ℕ → ℕ → ℚ`
read only at in-range indices, the MPI Cartesian topology becomes explicit
coordinate arithmetic, and the per-rank distributed state becomes a function
from 2-D process coordinates to local fields.  Rank reordering by
`Create_cart(reorder=True)` is modelled as the identity (the standard
row-major rank/coordinate correspondence), so ranks in `COMM_WORLD` and in
the Cartesian communicator coincide.
-/

namespace HeatMPI

/-! ### Module constants (source lines 21-25) -/

def ALPHA : ℚ := 1/100

def T_HOT : ℚ := 100

def T_COLD : ℚ := 0

def T_INITIAL : ℚ := 20

/-! ### Domain partition formulas (spec section 4.2) -/

/-- The spec's partition formula: `local_size(N, P, coord) = N/P + (1 if coord < N % P else 0)`. -/
def local_size (N P coord : ℕ) : ℕ := N / P + (if coord < N % P then 1 else 0)

/-- The spec's offset formula: `offset(N, P, coord) = coord*(N/P) + min(coord, N % P)`. -/
def offset (N P coord : ℕ) : ℕ := coord * (N / P) + min coord (N % P)

/-- One axis of the local-size computation in `setup_topology` (source lines 98-106):
`nx_local = nx_global // dims[0]`, then `+= 1` when `coords[0] < nx_global % dims[0]`. -/
def setupLocalSize (N P coord : ℕ) : ℕ :=
  let base := N / P
  if coord < N % P then base + 1 else base

/-- One axis of the per-rank size recomputation in `gather_global_solution`
(source lines 264-271). -/
def gatherLocalSize (N P coord : ℕ) : ℕ :=
  let base := N / P
  if coord < N % P then base + 1 else base

/-- One axis of the start-index computation in `gather_global_solution`
(source lines 273-279): `i_start = coord*(N//P) + min(coord, N % P)`. -/
def gatherStart (N P coord : ℕ) : ℕ :=
  coord * (N / P) + min coord (N % P)

lemma setupLocalSize_eq (N P coord : ℕ) : setupLocalSize N P coord = local_size N P coord := by
  unfold setupLocalSize local_size
  split <;> simp

lemma gatherLocalSize_eq (N P coord : ℕ) : gatherLocalSize N P coord = local_size N P coord := by
  unfold gatherLocalSize local_size
  split <;> simp

lemma gatherStart_eq (N P coord : ℕ) : gatherStart N P coord = offset N P coord := rfl

lemma sum_local_size (N P : ℕ) (hP : 1 ≤ P) :
    (∑ c ∈ Finset.range P, local_size N P c) = N := by
  unfold local_size
  rw [Finset.sum_add_distrib, Finset.sum_const, Finset.card_range, smul_eq_mul]
  have hfilter : (Finset.range P).filter (fun c => c < N % P) = Finset.range (N % P) := by
    ext c
    simp only [Finset.mem_filter, Finset.mem_range]
    have := Nat.mod_lt N (show 0 < P by omega)
    omega
  rw [Finset.sum_boole, hfilter, Finset.card_range]
  simpa using Nat.div_add_mod N P

lemma offset_step (N P coord : ℕ) :
    offset N P coord + local_size N P coord = offset N P (coord + 1) := by
  unfold offset local_size
  rcases lt_or_ge coord (N % P) with h | h
  · rw [if_pos h, Nat.min_eq_left h.le, Nat.min_eq_left (Nat.succ_le_of_lt h)]
    ring_nf
    omega
  · rw [if_neg (not_lt.mpr h), Nat.min_eq_right h, Nat.min_eq_right (le_trans h (Nat.le_succ _))]
    ring

lemma offset_le_offset (N P : ℕ) {c c' : ℕ} (h : c ≤ c') : offset N P c ≤ offset N P c' := by
  induction c' with
  | zero => simpa [Nat.le_zero.mp h]
  | succ k ih =>
    rcases Nat.lt_or_ge c (k+1) with hlt | hge
    · calc offset N P c ≤ offset N P k := ih (Nat.lt_succ_iff.mp hlt)
        _ ≤ offset N P k + local_size N P k := Nat.le_add_right _ _
        _ = offset N P (k+1) := offset_step N P k
    · have : c = k + 1 := le_antisymm h hge
      simp [this]

/-- Tiles along an axis are disjoint: an earlier tile ends no later than a
later tile begins. -/
lemma offset_add_size_le (N P : ℕ) {c c' : ℕ} (h : c < c') :
    offset N P c + local_size N P c ≤ offset N P c' := by
  rw [offset_step]
  exact offset_le_offset N P h

/-- C1: the partition formulas `local_size` and `offset` tile each axis exactly:
local sizes over all coordinates sum to `N`, consecutive tiles are contiguous
(`offset(c) + local_size(c) = offset(c+1)`), and `setup_topology` (partitioning)
and `gather_global_solution` (reassembly) compute local sizes and offsets by
these same formulas. -/
theorem partition_tiling (N P coord : ℕ) (hP : 1 ≤ P) (hc : coord < P) :
    (∑ c ∈ Finset.range P, local_size N P c) = N ∧
    (coord + 1 < P → offset N P coord + local_size N P coord = offset N P (coord + 1)) ∧
    setupLocalSize N P coord = local_size N P coord ∧
    gatherLocalSize N P coord = local_size N P coord ∧
    gatherStart N P coord = offset N P coord := by
  refine ⟨sum_local_size N P hP, fun _ => offset_step N P coord, setupLocalSize_eq N P coord,
    gatherLocalSize_eq N P coord, gatherStart_eq N P coord⟩

/-- Witness for C1 at `N = 10`, `P = 3`, `coord = 1`. -/
theorem partition_tiling_witness :
    (1 ≤ 3 ∧ 1 < 3) ∧
    ((∑ c ∈ Finset.range 3, local_size 10 3 c) = 10 ∧
     (1 + 1 < 3 → offset 10 3 1 + local_size 10 3 1 = offset 10 3 (1 + 1)) ∧
     setupLocalSize 10 3 1 = local_size 10 3 1 ∧
     gatherLocalSize 10 3 1 = local_size 10 3 1 ∧
     gatherStart 10 3 1 = offset 10 3 1) :=
  ⟨by decide, partition_tiling 10 3 1 (by decide) (by decide)⟩

/-! ### Process topology (source lines 77-126)

`Create_cart` assigns row-major coordinates; `Cart_shift(axis, disp)` returns
the pair `(source, dest)` sitting at displacements `-disp` and `+disp` along
`axis`, or `PROC_NULL` (here `none`) when the target falls outside the
non-periodic grid. -/

/-- Process-grid dimensions `dims = (Px, Py)`. -/
structure Dims where
  px : ℕ
  py : ℕ
deriving DecidableEq

/-- 2-D process coordinates in the Cartesian grid. -/
abbrev Coords := ℕ × ℕ

/-- The coordinate at signed displacement `disp` from `c` along `axis`
(0 or 1), or `none` when it leaves the grid (non-periodic boundaries). -/
def shiftTarget (d : Dims) (c : Coords) (axis : ℕ) (disp : ℤ) : Option Coords :=
  let x : ℤ := if axis = 0 then (c.1 : ℤ) + disp else (c.1 : ℤ)
  let y : ℤ := if axis = 1 then (c.2 : ℤ) + disp else (c.2 : ℤ)
  if 0 ≤ x ∧ x < (d.px : ℤ) ∧ 0 ≤ y ∧ y < (d.py : ℤ) then some (x.toNat, y.toNat) else none

/-- MPI `Cart_shift`: `(source, dest)` at displacements `-disp` and `+disp`. -/
def cartShift (d : Dims) (c : Coords) (axis : ℕ) (disp : ℤ) : Option Coords × Option Coords :=
  (shiftTarget d c axis (-disp), shiftTarget d c axis disp)

/-- `neighbors['north'] = Shift(0, 1)[0]` (source line 92). -/
def northNb (d : Dims) (c : Coords) : Option Coords := (cartShift d c 0 1).1

/-- `neighbors['south'] = Shift(0, 1)[1]` (source line 93). -/
def southNb (d : Dims) (c : Coords) : Option Coords := (cartShift d c 0 1).2

/-- `neighbors['west'] = Shift(1, -1)[0]` (source line 94). -/
def westNb (d : Dims) (c : Coords) : Option Coords := (cartShift d c 1 (-1)).1

/-- `neighbors['east'] = Shift(1, 1)[1]` (source line 95). -/
def eastNb (d : Dims) (c : Coords) : Option Coords := (cartShift d c 1 1).2

/-- Row-major rank-to-coordinate map of the Cartesian communicator. -/
def rankToCoords (d : Dims) (r : ℕ) : Coords := (r / d.py, r % d.py)

/-- Row-major coordinate-to-rank map of the Cartesian communicator. -/
def coordsToRank (d : Dims) (c : Coords) : ℕ := c.1 * d.py + c.2

lemma rankToCoords_coordsToRank (d : Dims) (c : Coords) (hcy : c.2 < d.py) :
    rankToCoords d (coordsToRank d c) = c := by
  unfold rankToCoords coordsToRank
  have h1 : (c.1 * d.py + c.2) / d.py = c.1 := by
    rw [mul_comm, Nat.mul_add_div (by omega), Nat.div_eq_of_lt hcy]
    omega
  have h2 : (c.1 * d.py + c.2) % d.py = c.2 := by
    rw [mul_comm, Nat.mul_add_mod d.py c.1 c.2, Nat.mod_eq_of_lt hcy]
  rw [h1, h2]

lemma rankToCoords_injOn (d : Dims) {r r' : ℕ} (h : rankToCoords d r = rankToCoords d r') :
    d.py ≠ 0 → r = r' := by
  intro hpy
  unfold rankToCoords at h
  have h1 := congrArg Prod.fst h
  have h2 := congrArg Prod.snd h
  simp only at h1 h2
  calc r = d.py * (r / d.py) + r % d.py := (Nat.div_add_mod r d.py).symm
    _ = d.py * (r' / d.py) + r' % d.py := by rw [h1, h2]
    _ = r' := Nat.div_add_mod r' d.py

lemma rankToCoords_mem_grid (d : Dims) {r : ℕ} (hr : r < d.px * d.py) :
    (rankToCoords d r).1 < d.px ∧ (rankToCoords d r).2 < d.py := by
  unfold rankToCoords
  have hpy : 0 < d.py := Nat.pos_of_ne_zero (fun h => by simp [h] at hr)
  constructor
  · exact Nat.div_lt_of_lt_mul (by rw [Nat.mul_comm d.py d.px]; exact hr)
  · exact Nat.mod_lt _ hpy

/-! ### Grid spacing and time step (source lines 108-113) -/

/-- Grid spacing `1/(N - 1)` (source lines 109-110); subtraction over ℤ so the
degenerate inputs that Python accepts are represented faithfully. -/
def spacing (N : ℕ) : ℚ := 1 / ((N : ℚ) - 1)

/-- Time step chosen at setup, `dt = 0.25 * min(dx**2, dy**2) / alpha`
(source line 113). -/
def dtFor (alpha dx dy : ℚ) : ℚ := (1/4) * min (dx^2) (dy^2) / alpha

/-- The stencil coefficient `alpha * dt / h**2` (source lines 209-210). -/
def stencilCoeff (alpha dt h : ℚ) : ℚ := alpha * dt / h^2

/-- C7: over exact arithmetic, the time step `dt = 0.25*min(dx^2, dy^2)/alpha`
computed at construction satisfies the stability bound `rx + ry ≤ 1/2` with
`rx = alpha*dt/dx^2`, `ry = alpha*dt/dy^2`, for every grid with
`nx_global, ny_global ≥ 2` and every diffusivity `alpha > 0`. -/
theorem dt_stability (nx ny : ℕ) (alpha : ℚ) (hnx : 2 ≤ nx) (hny : 2 ≤ ny) (halpha : 0 < alpha) :
    stencilCoeff alpha (dtFor alpha (spacing nx) (spacing ny)) (spacing nx) +
      stencilCoeff alpha (dtFor alpha (spacing nx) (spacing ny)) (spacing ny) ≤ 1/2 := by
  have hdx : 0 < spacing nx := by
    unfold spacing
    have : (2:ℚ) ≤ (nx:ℚ) := by exact_mod_cast hnx
    have : (1:ℚ) ≤ (nx:ℚ) - 1 := by linarith
    positivity
  have hdy : 0 < spacing ny := by
    unfold spacing
    have : (2:ℚ) ≤ (ny:ℚ) := by exact_mod_cast hny
    have : (1:ℚ) ≤ (ny:ℚ) - 1 := by linarith
    positivity
  set dx := spacing nx
  set dy := spacing ny
  have hdx2 : 0 < dx^2 := by positivity
  have hdy2 : 0 < dy^2 := by positivity
  have hrx : stencilCoeff alpha (dtFor alpha dx dy) dx = min (dx^2) (dy^2) / (4 * dx^2) := by
    unfold stencilCoeff dtFor
    field_simp
    ring
  have hry : stencilCoeff alpha (dtFor alpha dx dy) dy = min (dx^2) (dy^2) / (4 * dy^2) := by
    unfold stencilCoeff dtFor
    field_simp
    ring
  rw [hrx, hry]
  have h1 : min (dx^2) (dy^2) / (4 * dx^2) ≤ 1/4 := by
    rw [div_le_iff (by positivity)]
    have := min_le_left (dx^2) (dy^2)
    linarith
  have h2 : min (dx^2) (dy^2) / (4 * dy^2) ≤ 1/4 := by
    rw [div_le_iff (by positivity)]
    have := min_le_right (dx^2) (dy^2)
    linarith
  linarith

/-- Witness for C7 at the spec's concrete scenario `nx = ny = 10`,
`alpha = ALPHA = 1/100`. -/
theorem dt_stability_witness :
    (2 ≤ 10 ∧ 0 < ALPHA) ∧
    stencilCoeff ALPHA (dtFor ALPHA (spacing 10) (spacing 10)) (spacing 10) +
      stencilCoeff ALPHA (dtFor ALPHA (spacing 10) (spacing 10)) (spacing 10) ≤ 1/2 :=
  ⟨⟨by decide, by norm_num [ALPHA]⟩,
    dt_stability 10 10 ALPHA (by decide) (by decide) (by norm_num [ALPHA])⟩

/-! ### Solver construction (source lines 50-126) -/

/-- Mirror of the `GridConfig` dataclass (source lines 27-38). -/
structure GridConfig where
  nx_global : ℕ
  ny_global : ℕ
  nx_local : ℕ
  ny_local : ℕ
  dx : ℚ
  dy : ℚ
  dt : ℚ
  coords : Coords
  dims : Dims

/-- The whole of `__init__`/`setup_topology` as far as configuration goes
(source lines 50-126), for the process at `c` in process grid `d`.  The code
performs no input validation; the only failure mode is Python's
`ZeroDivisionError` from `dx = 1.0 / (nx_global - 1)` when a global size
equals 1, modelled as `none`. -/
def setupTopology (nxg nyg : ℕ) (d : Dims) (c : Coords) : Option GridConfig :=
  if nxg = 1 ∨ nyg = 1 then none
  else some
    { nx_global := nxg
      ny_global := nyg
      nx_local := setupLocalSize nxg d.px c.1
      ny_local := setupLocalSize nyg d.py c.2
      dx := spacing nxg
      dy := spacing nyg
      dt := dtFor ALPHA (spacing nxg) (spacing nyg)
      coords := c
      dims := d }

/-- C8 (code bug): construction does not fail fast on an invalid configuration.
With the invalid global grid size `nx_global = 0` (the spec requires sizes ≥ 2
and a startup failure otherwise), `setup_topology` completes successfully,
silently producing a configuration with negative grid spacing `dx = -1` and a
zero-width local grid; the run then proceeds into communication.  (The
diffusivity is a hard-coded constant, so a non-positive value cannot even be
rejected, and no process-count check exists anywhere in `__init__` or `main`.) -/
theorem construction_accepts_invalid_grid :
    ∃ cfg, setupTopology 0 256 ⟨1, 1⟩ (0, 0) = some cfg ∧
      cfg.dx = -1 ∧ cfg.nx_local = 0 ∧ cfg.dx < 0 := by
  refine ⟨_, rfl, ?_, ?_, ?_⟩
  · show spacing 0 = -1
    unfold spacing
    norm_num
  · show setupLocalSize 0 1 0 = 0
    decide
  · show spacing 0 < 0
    unfold spacing
    norm_num

/-! ### Local fields with halo (source lines 128-162)

A local field is a total function; the solver reads it only at indices
`0 .. nx_local+1` by `0 .. ny_local+1`.  `u[k, :] = v` and `u[:, k] = v`
become whole-row and whole-column overwrites. -/

/-- A local temperature field including the one-cell halo border. -/
abbrev Field := ℕ → ℕ → ℚ

/-- Pair of buffers `u` (current) and `u_new` (next), source lines 133-136. -/
structure LocalState where
  u : Field
  un : Field

/-- numpy `u[k, :] = v`. -/
def setRow (k : ℕ) (v : ℚ) (f : Field) : Field := fun i j => if i = k then v else f i j

/-- numpy `u[:, k] = v`. -/
def setCol (k : ℕ) (v : ℚ) (f : Field) : Field := fun i j => if j = k then v else f i j

/-- `apply_boundary_conditions` (source lines 141-162): for each side whose
entry in the neighbor table is `PROC_NULL`, overwrite the full halo row or
column of both buffers with the Dirichlet value, in source order north (hot),
south, west, east (cold); `u[-1]` is row `nx+1` and `u[:, -1]` column `ny+1`. -/
def applyBC (d : Dims) (c : Coords) (nx ny : ℕ) (s : LocalState) : LocalState :=
  let s1 := if northNb d c = none then ⟨setRow 0 T_HOT s.u, setRow 0 T_HOT s.un⟩ else s
  let s2 := if southNb d c = none then
    ⟨setRow (nx+1) T_COLD s1.u, setRow (nx+1) T_COLD s1.un⟩ else s1
  let s3 := if westNb d c = none then ⟨setCol 0 T_COLD s2.u, setCol 0 T_COLD s2.un⟩ else s2
  if eastNb d c = none then ⟨setCol (ny+1) T_COLD s3.u, setCol (ny+1) T_COLD s3.un⟩ else s3

/-- The all-`T_INITIAL` state produced by `initialize_grid` before its
boundary-condition call (source lines 133-136). -/
def initialState : LocalState := ⟨fun _ _ => T_INITIAL, fun _ _ => T_INITIAL⟩

/-- C4 (code bug): boundary enforcement acts on the wrong column side.  In a
2 x 2 process grid, the process at coordinates `(0,0)` sits on the global west
edge (it has no true west neighbor), yet `apply_boundary_conditions` leaves its
halo column 0 at the initial 20.0 instead of the configured cold value, because
the neighbor table's `west` entry was built from `Shift(1, -1)[0]`, which is
the rank at `cy + 1`.  Dually, the process at `(0,1)`, whose west side faces
the neighbor `(0,0)`, gets its column 0 overwritten with the cold value.  The
claim requires the enforcement to fire exactly on the no-neighbor sides. -/
theorem boundary_enforced_on_wrong_side :
    shiftTarget ⟨2, 2⟩ (0, 0) 1 (-1) = none ∧
    westNb ⟨2, 2⟩ (0, 0) = some (0, 1) ∧
    (applyBC ⟨2, 2⟩ (0, 0) 2 2 initialState).u 1 0 = T_INITIAL ∧
    T_INITIAL ≠ T_COLD ∧
    shiftTarget ⟨2, 2⟩ (0, 1) 1 (-1) = some (0, 0) ∧
    westNb ⟨2, 2⟩ (0, 1) = none ∧
    (applyBC ⟨2, 2⟩ (0, 1) 2 2 initialState).u 1 0 = T_COLD :=
  ⟨by decide, by decide, rfl, by norm_num [T_INITIAL, T_COLD], by decide, by decide, rfl⟩

/-! ### Stencil integrator (source lines 197-224) -/

lemma applyBC_interior (d : Dims) (c : Coords) (nx ny : ℕ) (s : LocalState) (i j : ℕ)
    (hi1 : 1 ≤ i) (hi2 : i ≤ nx) (hj1 : 1 ≤ j) (hj2 : j ≤ ny) :
    (applyBC d c nx ny s).u i j = s.u i j ∧ (applyBC d c nx ny s).un i j = s.un i j := by
  have hi0 : i ≠ 0 := by omega
  have hin : i ≠ nx + 1 := by omega
  have hj0 : j ≠ 0 := by omega
  have hjn : j ≠ ny + 1 := by omega
  unfold applyBC
  split_ifs <;> simp [setRow, setCol, hi0, hin, hj0, hjn]

/-- `apply_stencil` (source lines 197-224): compute `rx`, `ry` from the
configuration, write the 5-point update into the interior of `u_new`, swap the
two buffers, then reapply the boundary conditions. -/
def applyStencil (d : Dims) (c : Coords) (nx ny : ℕ) (dt dx dy : ℚ) (s : LocalState) :
    LocalState :=
  let rx := stencilCoeff ALPHA dt dx
  let ry := stencilCoeff ALPHA dt dy
  let w : Field := fun i j =>
    if 1 ≤ i ∧ i ≤ nx ∧ 1 ≤ j ∧ j ≤ ny then
      s.u i j + rx * (s.u (i-1) j - 2 * s.u i j + s.u (i+1) j)
              + ry * (s.u i (j-1) - 2 * s.u i j + s.u i (j+1))
    else s.un i j
  applyBC d c nx ny ⟨w, s.u⟩

/-- C3: for every interior cell `(i,j)` the stencil update sets
`next[i,j] = current[i,j] + rx*(current[i-1,j] - 2*current[i,j] + current[i+1,j])
+ ry*(current[i,j-1] - 2*current[i,j] + current[i,j+1])` with
`rx = alpha*dt/dx^2`, `ry = alpha*dt/dy^2`, and afterwards the buffer roles are
swapped without copying: observed at every interior cell, the new `current`
holds the stencil result and the new `next` holds the old `current`. -/
theorem stencil_interior_update (d : Dims) (c : Coords) (nx ny : ℕ) (dt dx dy : ℚ)
    (s : LocalState) (i j : ℕ) (hi1 : 1 ≤ i) (hi2 : i ≤ nx) (hj1 : 1 ≤ j) (hj2 : j ≤ ny) :
    (applyStencil d c nx ny dt dx dy s).u i j =
      s.u i j + (ALPHA * dt / dx^2) * (s.u (i-1) j - 2 * s.u i j + s.u (i+1) j)
              + (ALPHA * dt / dy^2) * (s.u i (j-1) - 2 * s.u i j + s.u i (j+1)) ∧
    (applyStencil d c nx ny dt dx dy s).un i j = s.u i j := by
  unfold applyStencil
  have h := applyBC_interior d c nx ny
    ⟨fun i j =>
      if 1 ≤ i ∧ i ≤ nx ∧ 1 ≤ j ∧ j ≤ ny then
        s.u i j + stencilCoeff ALPHA dt dx * (s.u (i-1) j - 2 * s.u i j + s.u (i+1) j)
                + stencilCoeff ALPHA dt dy * (s.u i (j-1) - 2 * s.u i j + s.u i (j+1))
      else s.un i j, s.u⟩ i j hi1 hi2 hj1 hj2
  refine ⟨?_, h.2⟩
  rw [h.1]
  simp only [stencilCoeff]
  rw [if_pos ⟨hi1, hi2, hj1, hj2⟩]

/-- Witness for C3 at a concrete interior cell of a concrete state. -/
theorem stencil_interior_update_witness :
    (applyStencil ⟨1, 1⟩ (0, 0) 2 2 1 1 1 initialState).u 1 1 =
      initialState.u 1 1 +
        (ALPHA * 1 / 1^2) *
          (initialState.u 0 1 - 2 * initialState.u 1 1 + initialState.u 2 1) +
        (ALPHA * 1 / 1^2) *
          (initialState.u 1 0 - 2 * initialState.u 1 1 + initialState.u 1 2) ∧
    (applyStencil ⟨1, 1⟩ (0, 0) 2 2 1 1 1 initialState).un 1 1 = initialState.u 1 1 :=
  stencil_interior_update ⟨1, 1⟩ (0, 0) 2 2 1 1 1 initialState 1 1
    (by decide) (by decide) (by decide) (by decide)

/-! ### Ghost-cell exchange (source lines 164-195)

Each of the four `sendrecv` calls writes the object it receives into one
non-corner halo slice of `u`.  The received payload is modelled as an optional
1-D array: `none` models a receive from `PROC_NULL`, which delivers no data. -/

/-- numpy `u[k, 1:-1] = p` for a received payload `p` (indexed from 0). -/
def sliceAssignRow (k len : ℕ) (p : Option (ℕ → ℚ)) (f : Field) : Field := fun i j =>
  match p with
  | none => f i j
  | some g => if i = k ∧ 1 ≤ j ∧ j ≤ len then g (j - 1) else f i j

/-- numpy `u[1:-1, k] = p` for a received payload `p` (indexed from 0). -/
def sliceAssignCol (k len : ℕ) (p : Option (ℕ → ℚ)) (f : Field) : Field := fun i j =>
  match p with
  | none => f i j
  | some g => if j = k ∧ 1 ≤ i ∧ i ≤ len then g (i - 1) else f i j

/-- `exchange_ghost_cells` (source lines 164-195) as its local data effect: the
four receives land, in source order, in row `nx+1` (from the south partner),
row 0 (north), column `ny+1` (east) and column 0 (west); `u_new` is not
touched. -/
def exchangeGhost (nx ny : ℕ) (pS pN pE pW : Option (ℕ → ℚ)) (s : LocalState) : LocalState :=
  let u1 := sliceAssignRow (nx+1) ny pS s.u
  let u2 := sliceAssignRow 0 ny pN u1
  let u3 := sliceAssignCol (ny+1) nx pE u2
  let u4 := sliceAssignCol 0 nx pW u3
  ⟨u4, s.un⟩

/-- C10: whatever the four receives deliver, the exchange writes only the four
non-corner halo edge segments (row 0 and row `nx+1` at columns `1..ny`, column
0 and column `ny+1` at rows `1..nx`): every cell outside those segments — in
particular every interior cell and the four halo corner cells — keeps its value
in `u`, and the `u_new` buffer is left entirely unchanged. -/
theorem exchange_frame (nx ny : ℕ) (pS pN pE pW : Option (ℕ → ℚ)) (s : LocalState) :
    (∀ i j, ¬(i = 0 ∧ 1 ≤ j ∧ j ≤ ny) → ¬(i = nx+1 ∧ 1 ≤ j ∧ j ≤ ny) →
      ¬(j = 0 ∧ 1 ≤ i ∧ i ≤ nx) → ¬(j = ny+1 ∧ 1 ≤ i ∧ i ≤ nx) →
      (exchangeGhost nx ny pS pN pE pW s).u i j = s.u i j) ∧
    (∀ i j, 1 ≤ i → i ≤ nx → 1 ≤ j → j ≤ ny →
      (exchangeGhost nx ny pS pN pE pW s).u i j = s.u i j) ∧
    ((exchangeGhost nx ny pS pN pE pW s).u 0 0 = s.u 0 0 ∧
     (exchangeGhost nx ny pS pN pE pW s).u 0 (ny+1) = s.u 0 (ny+1) ∧
     (exchangeGhost nx ny pS pN pE pW s).u (nx+1) 0 = s.u (nx+1) 0 ∧
     (exchangeGhost nx ny pS pN pE pW s).u (nx+1) (ny+1) = s.u (nx+1) (ny+1)) ∧
    (exchangeGhost nx ny pS pN pE pW s).un = s.un := by
  have key : ∀ i j, ¬(i = 0 ∧ 1 ≤ j ∧ j ≤ ny) → ¬(i = nx+1 ∧ 1 ≤ j ∧ j ≤ ny) →
      ¬(j = 0 ∧ 1 ≤ i ∧ i ≤ nx) → ¬(j = ny+1 ∧ 1 ≤ i ∧ i ≤ nx) →
      (exchangeGhost nx ny pS pN pE pW s).u i j = s.u i j := by
    intro i j h1 h2 h3 h4
    unfold exchangeGhost sliceAssignRow sliceAssignCol
    cases pS <;> cases pN <;> cases pE <;> cases pW <;>
      simp only [] <;> (try rw [if_neg h4]) <;> (try rw [if_neg h3]) <;>
      (try rw [if_neg h1]) <;> (try rw [if_neg h2])
  refine ⟨key, ?_, ⟨?_, ?_, ?_, ?_⟩, rfl⟩
  · intro i j hi1 hi2 hj1 hj2
    exact key i j (by omega) (by omega) (by omega) (by omega)
  · exact key 0 0 (by omega) (by omega) (by omega) (by omega)
  · exact key 0 (ny+1) (by omega) (by omega) (by omega) (by omega)
  · exact key (nx+1) 0 (by omega) (by omega) (by omega) (by omega)
  · exact key (nx+1) (ny+1) (by omega) (by omega) (by omega) (by omega)

/-- Witness for C10: the exchange with concrete payloads on a 2 x 2 interior
leaves the sample cells dictated by the frame conditions unchanged. -/
theorem exchange_frame_witness :
    (∀ i j, ¬(i = 0 ∧ 1 ≤ j ∧ j ≤ 2) → ¬(i = 2+1 ∧ 1 ≤ j ∧ j ≤ 2) →
      ¬(j = 0 ∧ 1 ≤ i ∧ i ≤ 2) → ¬(j = 2+1 ∧ 1 ≤ i ∧ i ≤ 2) →
      (exchangeGhost 2 2 (some fun _ => 1) (some fun _ => 2) (some fun _ => 3)
        (some fun _ => 4) initialState).u i j = initialState.u i j) ∧
    (∀ i j, 1 ≤ i → i ≤ 2 → 1 ≤ j → j ≤ 2 →
      (exchangeGhost 2 2 (some fun _ => 1) (some fun _ => 2) (some fun _ => 3)
        (some fun _ => 4) initialState).u i j = initialState.u i j) ∧
    ((exchangeGhost 2 2 (some fun _ => 1) (some fun _ => 2) (some fun _ => 3)
        (some fun _ => 4) initialState).u 0 0 = initialState.u 0 0 ∧
     (exchangeGhost 2 2 (some fun _ => 1) (some fun _ => 2) (some fun _ => 3)
        (some fun _ => 4) initialState).u 0 (2+1) = initialState.u 0 (2+1) ∧
     (exchangeGhost 2 2 (some fun _ => 1) (some fun _ => 2) (some fun _ => 3)
        (some fun _ => 4) initialState).u (2+1) 0 = initialState.u (2+1) 0 ∧
     (exchangeGhost 2 2 (some fun _ => 1) (some fun _ => 2) (some fun _ => 3)
        (some fun _ => 4) initialState).u (2+1) (2+1) = initialState.u (2+1) (2+1)) ∧
    (exchangeGhost 2 2 (some fun _ => 1) (some fun _ => 2) (some fun _ => 3)
        (some fun _ => 4) initialState).un = initialState.un :=
  exchange_frame 2 2 (some fun _ => 1) (some fun _ => 2) (some fun _ => 3)
    (some fun _ => 4) initialState

/-! ### Communication pattern of the exchange (source lines 171-195)

The pickle-layer `sendrecv` posts one send to `dest` and one receive from
`source` (all with the same default tag); the four calls of
`exchange_ghost_cells` use, in order, `(dest, source)` =
`(north, south)`, `(south, north)`, `(west, east)`, `(east, west)`. -/

/-- Destinations of the four sends posted by one call of
`exchange_ghost_cells` (in source order; `none` is `PROC_NULL`). -/
def sendDests (d : Dims) (c : Coords) : List (Option Coords) :=
  [northNb d c, southNb d c, westNb d c, eastNb d c]

/-- Sources of the four receives posted by one call of
`exchange_ghost_cells` (in source order; `none` is `PROC_NULL`). -/
def recvSources (d : Dims) (c : Coords) : List (Option Coords) :=
  [southNb d c, northNb d c, eastNb d c, westNb d c]

/-- C5 (code bug): in any 2-D topology the exchange cannot complete at all, so
no state ever results from running it once, let alone twice.  In the 2 x 2
process grid, `west` and `east` both resolve to the neighbor at `cy + 1`
(`Shift(1, -1)[0]` is the rank at `cy + 1`), so process `(0,0)` posts two
receives naming `(0,1)` as source while process `(0,1)` sends only to `(1,1)`:
the receives can never be matched by any send and both processes block
forever. -/
theorem exchange_receives_unmatched :
    westNb ⟨2, 2⟩ (0, 0) = eastNb ⟨2, 2⟩ (0, 0) ∧
    (recvSources ⟨2, 2⟩ (0, 0)).count (some (0, 1)) = 2 ∧
    (sendDests ⟨2, 2⟩ (0, 1)).count (some (0, 0)) = 0 ∧
    sendDests ⟨2, 2⟩ (0, 1) = [none, some (1, 1), none, none] := by
  decide

/-! ### Convergence reduction (source lines 313-322) -/

/-- numpy `np.max` over a flattened list of values (the solver only ever
applies it to non-empty data; the empty case carries a junk value). -/
def npMax : List ℚ → ℚ
  | [] => 0
  | x :: xs => xs.foldl max x

lemma le_foldl_max (l : List ℚ) (a : ℚ) : a ≤ l.foldl max a := by
  induction l generalizing a with
  | nil => exact le_refl a
  | cons y ys ih => exact le_trans (le_max_left a y) (ih (max a y))

lemma mem_le_foldl_max {x : ℚ} (l : List ℚ) (a : ℚ) (h : x ∈ l) : x ≤ l.foldl max a := by
  induction l generalizing a with
  | nil => simp at h
  | cons y ys ih =>
    rcases List.mem_cons.mp h with rfl | hmem
    · exact le_trans (le_max_right a x) (le_foldl_max ys (max a x))
    · exact ih (max a y) hmem

lemma foldl_max_cases (l : List ℚ) (a : ℚ) : l.foldl max a = a ∨ l.foldl max a ∈ l := by
  induction l generalizing a with
  | nil => exact Or.inl rfl
  | cons y ys ih =>
    rcases ih (max a y) with h | h
    · rcases max_choice a y with hm | hm
      · exact Or.inl (by rw [List.foldl_cons, h, hm])
      · exact Or.inr (by rw [List.foldl_cons, h, hm]; exact List.mem_cons_self y ys)
    · exact Or.inr (List.mem_cons_of_mem y h)

lemma le_npMax {x : ℚ} {l : List ℚ} (h : x ∈ l) : x ≤ npMax l := by
  cases l with
  | nil => simp at h
  | cons y ys =>
    rcases List.mem_cons.mp h with rfl | hmem
    · exact le_foldl_max ys x
    · exact mem_le_foldl_max ys y hmem

lemma npMax_mem {l : List ℚ} (h : l ≠ []) : npMax l ∈ l := by
  cases l with
  | nil => exact absurd rfl h
  | cons y ys =>
    rcases foldl_max_cases ys y with hc | hc
    · show ys.foldl max y ∈ y :: ys
      rw [hc]
      exact List.mem_cons_self y ys
    · exact List.mem_cons_of_mem y hc

/-- The flattened list `np.abs(u_new[1:-1, 1:-1] - u[1:-1, 1:-1])` in numpy's
row-major order, for a local interior of size `nx * ny`. -/
def interiorAbsDiffs (nx ny : ℕ) (u un : Field) : List ℚ :=
  (List.range (nx * ny)).map
    (fun k => |un (k / ny + 1) (k % ny + 1) - u (k / ny + 1) (k % ny + 1)|)

/-- The `local_max` of `compute_max_error` (source line 317) on the process at
coordinates `c`, whose interior size comes from its `setup_topology` run. -/
def localMaxErr (nxg nyg : ℕ) (d : Dims) (U UN : Coords → Field) (c : Coords) : ℚ :=
  npMax (interiorAbsDiffs (setupLocalSize nxg d.px c.1) (setupLocalSize nyg d.py c.2)
    (U c) (UN c))

/-- `compute_max_error` (source lines 313-322): every rank computes its local
maximum and `allreduce(op=MAX)` hands every rank the reduction of all ranks'
contributions in rank order; the result as observed on rank `r`. -/
def computeMaxError (nxg nyg : ℕ) (d : Dims) (U UN : Coords → Field) (r : ℕ) : ℚ :=
  npMax ((List.range (d.px * d.py)).map (fun p => localMaxErr nxg nyg d U UN (rankToCoords d p)))

lemma local_size_pos (N P coord : ℕ) (hPN : P ≤ N) (hP : 1 ≤ P) :
    1 ≤ local_size N P coord := by
  unfold local_size
  have : 1 ≤ N / P := (Nat.one_le_div_iff (by omega)).mpr hPN
  split <;> omega

lemma mem_interiorAbsDiffs (nx ny : ℕ) (u un : Field) {a b : ℕ}
    (ha : a < nx) (hb : b < ny) :
    |un (a+1) (b+1) - u (a+1) (b+1)| ∈ interiorAbsDiffs nx ny u un := by
  unfold interiorAbsDiffs
  have hk : ny * a + b < nx * ny := by
    calc ny * a + b < ny * a + ny := by omega
      _ = ny * (a + 1) := by ring
      _ ≤ ny * nx := Nat.mul_le_mul_left ny ha
      _ = nx * ny := Nat.mul_comm ny nx
  have hdiv : (ny * a + b) / ny = a := by
    rw [Nat.mul_add_div (by omega), Nat.div_eq_of_lt hb]
    omega
  have hmod : (ny * a + b) % ny = b := by
    rw [Nat.mul_add_mod ny a b, Nat.mod_eq_of_lt hb]
  refine List.mem_map.mpr ⟨ny * a + b, List.mem_range.mpr hk, ?_⟩
  rw [hdiv, hmod]

/-- C6: `compute_max_error` returns the maximum over all processes of each
process's local maximum `|next - current|` over interior cells — it bounds
every interior difference of every process, it is attained at some interior
cell of some process, and it is identical on every rank. -/
theorem max_error_is_global_max (nxg nyg : ℕ) (d : Dims) (U UN : Coords → Field) (r r' : ℕ)
    (hpx : 1 ≤ d.px) (hpy : 1 ≤ d.py) (hxg : d.px ≤ nxg) (hyg : d.py ≤ nyg) :
    (∀ cx cy a b, cx < d.px → cy < d.py →
      a < local_size nxg d.px cx → b < local_size nyg d.py cy →
      |UN (cx, cy) (a+1) (b+1) - U (cx, cy) (a+1) (b+1)| ≤
        computeMaxError nxg nyg d U UN r) ∧
    (∃ cx cy a b, cx < d.px ∧ cy < d.py ∧
      a < local_size nxg d.px cx ∧ b < local_size nyg d.py cy ∧
      computeMaxError nxg nyg d U UN r =
        |UN (cx, cy) (a+1) (b+1) - U (cx, cy) (a+1) (b+1)|) ∧
    computeMaxError nxg nyg d U UN r = computeMaxError nxg nyg d U UN r' := by
  refine ⟨?_, ?_, rfl⟩
  · intro cx cy a b hcx hcy ha hb
    have hmemd : |UN (cx, cy) (a+1) (b+1) - U (cx, cy) (a+1) (b+1)| ∈
        interiorAbsDiffs (setupLocalSize nxg d.px cx) (setupLocalSize nyg d.py cy)
          (U (cx, cy)) (UN (cx, cy)) :=
      mem_interiorAbsDiffs _ _ _ _ (by rwa [setupLocalSize_eq]) (by rwa [setupLocalSize_eq])
    have hloc : |UN (cx, cy) (a+1) (b+1) - U (cx, cy) (a+1) (b+1)| ≤
        localMaxErr nxg nyg d U UN (cx, cy) := le_npMax hmemd
    have hrank : coordsToRank d (cx, cy) < d.px * d.py := by
      unfold coordsToRank
      calc cx * d.py + cy < cx * d.py + d.py := by omega
        _ = (cx + 1) * d.py := by ring
        _ ≤ d.px * d.py := Nat.mul_le_mul_right d.py hcx
    have hmeml : localMaxErr nxg nyg d U UN (cx, cy) ∈
        (List.range (d.px * d.py)).map (fun p => localMaxErr nxg nyg d U UN (rankToCoords d p)) := by
      refine List.mem_map.mpr ⟨coordsToRank d (cx, cy), List.mem_range.mpr hrank, ?_⟩
      rw [rankToCoords_coordsToRank d (cx, cy) hcy]
    exact le_trans hloc (le_npMax hmeml)
  · have hne : (List.range (d.px * d.py)).map
        (fun p => localMaxErr nxg nyg d U UN (rankToCoords d p)) ≠ [] := by
      simp only [ne_eq, List.map_eq_nil_iff, List.range_eq_nil]
      positivity
    obtain ⟨p, hp, hpe⟩ := List.mem_map.mp (npMax_mem hne)
    have hp' := List.mem_range.mp hp
    obtain ⟨hgx, hgy⟩ := rankToCoords_mem_grid d hp'
    set c := rankToCoords d p
    have hnx : 1 ≤ setupLocalSize nxg d.px c.1 := by
      rw [setupLocalSize_eq]; exact local_size_pos nxg d.px c.1 hxg hpx
    have hny : 1 ≤ setupLocalSize nyg d.py c.2 := by
      rw [setupLocalSize_eq]; exact local_size_pos nyg d.py c.2 hyg hpy
    have hne2 : interiorAbsDiffs (setupLocalSize nxg d.px c.1) (setupLocalSize nyg d.py c.2)
        (U c) (UN c) ≠ [] := by
      simp only [interiorAbsDiffs, ne_eq, List.map_eq_nil_iff, List.range_eq_nil]
      positivity
    obtain ⟨k, hk, hke⟩ := List.mem_map.mp (npMax_mem hne2)
    have hk' := List.mem_range.mp hk
    have hky : 0 < setupLocalSize nyg d.py c.2 := hny
    have hceta : ((c.1, c.2) : Coords) = c := rfl
    refine ⟨c.1, c.2, k / setupLocalSize nyg d.py c.2, k % setupLocalSize nyg d.py c.2,
      hgx, hgy, ?_, ?_, ?_⟩
    · rw [← setupLocalSize_eq]
      exact Nat.div_lt_of_lt_mul (by rw [Nat.mul_comm]; exact hk')
    · rw [← setupLocalSize_eq]
      exact Nat.mod_lt _ hky
    · rw [hceta]
      unfold computeMaxError
      rw [← hpe]
      unfold localMaxErr interiorAbsDiffs
      rw [← hke]

/-- Witness for C6 at a one-process topology with concrete fields. -/
theorem max_error_is_global_max_witness :
    (1 ≤ 1 ∧ 1 ≤ 2) ∧
    ((∀ cx cy a b, cx < Dims.px ⟨1, 1⟩ → cy < Dims.py ⟨1, 1⟩ →
      a < local_size 2 (Dims.px ⟨1, 1⟩) cx → b < local_size 2 (Dims.py ⟨1, 1⟩) cy →
      |(fun _ : Coords => fun i j : ℕ => (i : ℚ) + j) (cx, cy) (a+1) (b+1) -
        (fun _ : Coords => fun _ _ : ℕ => (0 : ℚ)) (cx, cy) (a+1) (b+1)| ≤
        computeMaxError 2 2 ⟨1, 1⟩ (fun _ => fun _ _ => 0)
          (fun _ => fun i j => (i : ℚ) + j) 0) ∧
    (∃ cx cy a b, cx < Dims.px ⟨1, 1⟩ ∧ cy < Dims.py ⟨1, 1⟩ ∧
      a < local_size 2 (Dims.px ⟨1, 1⟩) cx ∧ b < local_size 2 (Dims.py ⟨1, 1⟩) cy ∧
      computeMaxError 2 2 ⟨1, 1⟩ (fun _ => fun _ _ => 0) (fun _ => fun i j => (i : ℚ) + j) 0 =
        |(fun _ : Coords => fun i j : ℕ => (i : ℚ) + j) (cx, cy) (a+1) (b+1) -
          (fun _ : Coords => fun _ _ : ℕ => (0 : ℚ)) (cx, cy) (a+1) (b+1)|) ∧
    computeMaxError 2 2 ⟨1, 1⟩ (fun _ => fun _ _ => 0) (fun _ => fun i j => (i : ℚ) + j) 0 =
      computeMaxError 2 2 ⟨1, 1⟩ (fun _ => fun _ _ => 0) (fun _ => fun i j => (i : ℚ) + j) 1) :=
  ⟨⟨by decide, by decide⟩,
    max_error_is_global_max 2 2 ⟨1, 1⟩ (fun _ => fun _ _ => 0) (fun _ => fun i j => (i : ℚ) + j)
      0 1 (by decide) (by decide) (by decide) (by decide)⟩

/-! ### Snapshot file format (source lines 292-311)

`save_solution` writes, through rank 0 only, the characters
`"# Heat equation solution at timestep {t}\n # nx={nx} ny={ny} time={t*dt:.6f}\n"`
followed, for each global row `i`, by `"{value:.6f} "` for each column `j` and
a newline.  The embedding models the file as its list of lines and Python's
`:.6f` fixed-point rendering over exact rationals (round half to even). -/

/-- Round to the nearest integer, ties to even. -/
def roundHalfEven (q : ℚ) : ℤ :=
  let n := ⌊q⌋
  if q - n < 1/2 then n
  else if (1:ℚ)/2 < q - n then n + 1
  else if 2 ∣ n then n else n + 1

/-- Decimal rendering of a natural number. -/
def natStr (n : ℕ) : String :=
  if n = 0 then "0" else String.mk ((Nat.digits 10 n).reverse.map Nat.digitChar)

/-- The six digits after the decimal point, most significant first. -/
def fracStr6 (m : ℕ) : String :=
  String.mk ([5, 4, 3, 2, 1, 0].map (fun k => Nat.digitChar (m / 10^k % 10)))

/-- Python's `f"{q:.6f}"` over exact rationals. -/
def formatFixed6 (q : ℚ) : String :=
  let m := (roundHalfEven (|q| * 10^6)).toNat
  (if q < 0 then "-" else "") ++ natStr (m / 10^6) ++ "." ++ fracStr6 (m % 10^6)

/-- First header line (source line 302, up to its `\n`). -/
def headerLine1 (t : ℕ) : String := "# Heat equation solution at timestep " ++ natStr t

/-- Second header line (source lines 302-304: the space written after the
first `\n`, then `# nx=… ny=… time=…`). -/
def headerLine2 (nxg nyg t : ℕ) (dt : ℚ) : String :=
  " # nx=" ++ natStr nxg ++ " ny=" ++ natStr nyg ++ " time=" ++ formatFixed6 ((t : ℚ) * dt)

/-- One data line (source lines 306-309): each value of global row `i`
formatted to 6 decimals and followed by one space, columns in order. -/
def dataLine (nyg : ℕ) (row : ℕ → ℚ) : String :=
  String.join ((List.range nyg).map (fun j => formatFixed6 (row j) ++ " "))

/-- The lines of the snapshot file written by `save_solution` for the gathered
global solution `G` at timestep `t` (source lines 292-311). -/
def saveLines (t nxg nyg : ℕ) (dt : ℚ) (G : ℕ → ℕ → ℚ) : List String :=
  headerLine1 t :: headerLine2 nxg nyg t dt :: (List.range nxg).map (fun i => dataLine nyg (G i))

lemma digitChar_isDigit {d : ℕ} (h : d < 10) : (Nat.digitChar d).isDigit = true :=
  (by decide : ∀ d < 10, (Nat.digitChar d).isDigit = true) d h

lemma natStr_chars_digit (n : ℕ) : ∀ ch ∈ (natStr n).toList, ch.isDigit = true := by
  intro ch hch
  unfold natStr at hch
  split at hch
  · have : ch = '0' := by simpa using hch
    simp [this]
  · simp only [String.toList] at hch
    obtain ⟨d, hd, rfl⟩ := List.mem_map.mp hch
    exact digitChar_isDigit (Nat.digits_lt_base (by norm_num) (List.mem_reverse.mp hd))

lemma fracStr6_chars_digit (m : ℕ) : ∀ ch ∈ (fracStr6 m).toList, ch.isDigit = true := by
  intro ch hch
  unfold fracStr6 at hch
  simp only [String.toList] at hch
  obtain ⟨k, _, rfl⟩ := List.mem_map.mp hch
  exact digitChar_isDigit (Nat.mod_lt _ (by norm_num))

lemma fracStr6_length (m : ℕ) : (fracStr6 m).length = 6 := rfl

lemma isDigit_ne_space {ch : Char} (h : ch.isDigit = true) : ch ≠ ' ' := by
  intro hs
  rw [hs] at h
  exact absurd h (by decide)

lemma formatFixed6_chars (q : ℚ) : ∀ ch ∈ (formatFixed6 q).toList, ch ≠ ' ' := by
  intro ch hch
  unfold formatFixed6 at hch
  simp only [String.toList, String.data_append] at hch
  rcases List.mem_append.mp hch with h | h
  · rcases List.mem_append.mp h with h2 | h2
    · rcases List.mem_append.mp h2 with h3 | h3
      · split at h3 <;> simp at h3 <;> simp [h3]
      · exact isDigit_ne_space (natStr_chars_digit _ ch h3)
    · have : ch = '.' := by simpa using h2
      simp [this]
  · exact isDigit_ne_space (fracStr6_chars_digit _ ch h)

/-- C9: the snapshot consists of a two-line header (timestep index on the
first line; grid dimensions and simulation time `t*dt` on the second) followed
by exactly `nx_global` data lines; data line `i` is the concatenation, over
columns `j = 0 .. ny_global - 1` in order, of the 6-decimal rendering of
`G[i,j]` followed by one separating space (global `i` outer, `j` inner:
row-major); every rendered value has exactly 6 digits after its decimal point,
all characters of a value are non-space, so each line holds `ny_global`
whitespace-separated values. -/
theorem save_snapshot_format (t nxg nyg : ℕ) (dt : ℚ) (G : ℕ → ℕ → ℚ) :
    (saveLines t nxg nyg dt G).length = nxg + 2 ∧
    (saveLines t nxg nyg dt G).getD 0 "" =
      "# Heat equation solution at timestep " ++ natStr t ∧
    (saveLines t nxg nyg dt G).getD 1 "" =
      " # nx=" ++ natStr nxg ++ " ny=" ++ natStr nyg ++ " time=" ++ formatFixed6 ((t : ℚ) * dt) ∧
    (∀ i, i < nxg → (saveLines t nxg nyg dt G).getD (2+i) "" =
      String.join ((List.range nyg).map (fun j => formatFixed6 (G i j) ++ " "))) ∧
    (∀ q : ℚ, ∃ pre digs : String, formatFixed6 q = pre ++ "." ++ digs ∧ digs.length = 6 ∧
      (∀ ch ∈ digs.toList, ch.isDigit = true) ∧ ∀ ch ∈ (formatFixed6 q).toList, ch ≠ ' ') := by
  refine ⟨?_, rfl, rfl, ?_, ?_⟩
  · simp [saveLines]
  · intro i hi
    rw [show 2 + i = i + 1 + 1 from by omega]
    show ((List.range nxg).map (fun i => dataLine nyg (G i))).getD i "" = _
    rw [List.getD_eq_getElem _ _ (by simpa using hi)]
    simp [dataLine]
  · intro q
    refine ⟨(if q < 0 then "-" else "") ++
      natStr ((roundHalfEven (|q| * 10^6)).toNat / 10^6),
      fracStr6 ((roundHalfEven (|q| * 10^6)).toNat % 10^6), rfl, fracStr6_length _,
      fracStr6_chars_digit _, formatFixed6_chars q⟩

/-- Witness for C9 on a concrete 2 x 2 global solution. -/
theorem save_snapshot_format_witness :
    (saveLines 3 2 2 (1/4) (fun i j => (i : ℚ) - j)).length = 2 + 2 ∧
    (saveLines 3 2 2 (1/4) (fun i j => (i : ℚ) - j)).getD 3 "" =
      String.join ((List.range 2).map
        (fun j => formatFixed6 ((fun i j => (i : ℚ) - j) 1 j) ++ " ")) :=
  ⟨((save_snapshot_format 3 2 2 (1/4) (fun i j => (i : ℚ) - j)).1).trans (by decide),
    (save_snapshot_format 3 2 2 (1/4) (fun i j => (i : ℚ) - j)).2.2.2.1 1 (by decide)⟩

/-! ### Global gather (source lines 226-290)

On `size == 1` the local interior block is returned directly.  Otherwise every
rank contributes `local_solution.flatten()` to a `Gatherv` whose receive buffer
on rank 0 concatenates the contributions in rank order; rank 0 then walks the
ranks in order, slicing `sizes[p]` entries at a running offset, reshaping them
to `(p_nx_local, p_ny_local)` row-major and writing the rectangle at
`(i_start, j_start)` into an `np.zeros((nx_global, ny_global))` array; all
other ranks return `None`. -/

/-- The interior block `u[1:-1, 1:-1]` of a local field, reindexed from 0. -/
def interiorView (f : Field) : ℕ → ℕ → ℚ := fun a b => f (a+1) (b+1)

/-- numpy `local_solution.flatten()`: row-major linearization of the
`nx * ny` interior block. -/
def flattenBlock (nx ny : ℕ) (f : Field) : List ℚ :=
  (List.range (nx * ny)).map (fun k => f (k / ny + 1) (k % ny + 1))

/-- `local_solution.size` as gathered from rank `r` (source lines 242-244):
the product of that rank's setup-time local sizes. -/
def sizesOf (nxg nyg : ℕ) (d : Dims) (r : ℕ) : ℕ :=
  setupLocalSize nxg d.px (rankToCoords d r).1 * setupLocalSize nyg d.py (rankToCoords d r).2

/-- The `Gatherv` receive buffer on rank 0 (source lines 247-253). -/
def gatheredData (nxg nyg : ℕ) (d : Dims) (U : Coords → Field) : List ℚ :=
  (List.range (d.px * d.py)).flatMap
    (fun r => flattenBlock (setupLocalSize nxg d.px (rankToCoords d r).1)
      (setupLocalSize nyg d.py (rankToCoords d r).2) (U (rankToCoords d r)))

/-- One iteration of the placement loop (source lines 260-284) for rank `p`:
slice `sizes[p]` entries at the running offset, reshape row-major to
`(p_nx_local, p_ny_local)`, write that rectangle at `(i_start, j_start)`, and
advance the offset. -/
def placeBlock (nxg nyg : ℕ) (d : Dims) (data : List ℚ)
    (st : (ℕ → ℕ → ℚ) × ℕ) (p : ℕ) : (ℕ → ℕ → ℚ) × ℕ :=
  let c := rankToCoords d p
  let pnx := gatherLocalSize nxg d.px c.1
  let pny := gatherLocalSize nyg d.py c.2
  let istart := gatherStart nxg d.px c.1
  let jstart := gatherStart nyg d.py c.2
  let blk := (data.drop st.2).take (sizesOf nxg nyg d p)
  (fun i j =>
    if istart ≤ i ∧ i < istart + pnx ∧ jstart ≤ j ∧ j < jstart + pny then
      blk.getD ((i - istart) * pny + (j - jstart)) 0
    else st.1 i j,
   st.2 + sizesOf nxg nyg d p)

/-- The first `k` iterations of the placement loop, started from
`np.zeros` and offset 0 (source lines 256-284). -/
def reconLoop (nxg nyg : ℕ) (d : Dims) (U : Coords → Field) (k : ℕ) : (ℕ → ℕ → ℚ) × ℕ :=
  (List.range k).foldl (placeBlock nxg nyg d (gatheredData nxg nyg d U)) (fun _ _ => 0, 0)

/-- The reconstructed global array on rank 0 (source lines 256-286). -/
def reconstructGlobal (nxg nyg : ℕ) (d : Dims) (U : Coords → Field) : ℕ → ℕ → ℚ :=
  (reconLoop nxg nyg d U (d.px * d.py)).1

/-- `gather_global_solution` (source lines 226-290), as observed on rank `r`. -/
def gatherGlobal (nxg nyg : ℕ) (d : Dims) (U : Coords → Field) (r : ℕ) :
    Option (ℕ → ℕ → ℚ) :=
  if d.px * d.py = 1 then some (interiorView (U (rankToCoords d r)))
  else if r = 0 then some (reconstructGlobal nxg nyg d U) else none

lemma flattenBlock_length (nx ny : ℕ) (f : Field) : (flattenBlock nx ny f).length = nx * ny := by
  simp [flattenBlock]

lemma flattenBlock_getD (nx ny : ℕ) (f : Field) {a b : ℕ} (ha : a < nx) (hb : b < ny) :
    (flattenBlock nx ny f).getD (a * ny + b) 0 = f (a+1) (b+1) := by
  unfold flattenBlock
  have hk : a * ny + b < nx * ny := by
    calc a * ny + b < a * ny + ny := by omega
      _ = (a + 1) * ny := by ring
      _ ≤ nx * ny := Nat.mul_le_mul_right ny ha
  rw [List.getD_eq_getElem _ _ (by simpa using hk)]
  have hdiv : (a * ny + b) / ny = a := by
    rw [Nat.mul_comm a ny, Nat.mul_add_div (by omega), Nat.div_eq_of_lt hb]
    omega
  have hmod : (a * ny + b) % ny = b := by
    rw [Nat.mul_comm a ny, Nat.mul_add_mod ny a b, Nat.mod_eq_of_lt hb]
  simp [hdiv, hmod]

lemma flatMap_drop_take (f : ℕ → List ℚ) (n k : ℕ) (hk : k < n) :
    (((List.range n).flatMap f).drop (((List.range k).map (fun p => (f p).length)).sum)).take
      (f k).length = f k := by
  have hsplit : List.range n =
      (List.range k ++ [k]) ++ (List.range (n - (k+1))).map ((k+1) + ·) := by
    rw [← List.range_succ, ← List.range_add]
    congr 1
    omega
  have hlen : ((List.range k).flatMap f).length =
      ((List.range k).map (fun p => (f p).length)).sum := by
    rw [List.length_flatMap]
    simp [Function.comp_def]
  rw [hsplit, List.flatMap_append _ _ f, List.flatMap_append _ _ f]
  have hsingle : ([k] : List ℕ).flatMap f = f k := by simp
  rw [hsingle, List.append_assoc, ← hlen, List.drop_left, List.take_left]

lemma gatheredData_extract (nxg nyg : ℕ) (d : Dims) (U : Coords → Field) {k : ℕ}
    (hk : k < d.px * d.py) :
    (((gatheredData nxg nyg d U).drop
        (((List.range k).map (sizesOf nxg nyg d)).sum)).take (sizesOf nxg nyg d k)) =
      flattenBlock (setupLocalSize nxg d.px (rankToCoords d k).1)
        (setupLocalSize nyg d.py (rankToCoords d k).2) (U (rankToCoords d k)) := by
  unfold gatheredData
  have hlens : ∀ p, sizesOf nxg nyg d p =
      (flattenBlock (setupLocalSize nxg d.px (rankToCoords d p).1)
        (setupLocalSize nyg d.py (rankToCoords d p).2) (U (rankToCoords d p))).length := by
    intro p
    rw [flattenBlock_length]
    rfl
  have hmap : (List.range k).map (sizesOf nxg nyg d) =
      (List.range k).map (fun p =>
        (flattenBlock (setupLocalSize nxg d.px (rankToCoords d p).1)
          (setupLocalSize nyg d.py (rankToCoords d p).2) (U (rankToCoords d p))).length) :=
    List.map_congr_left (fun p _ => hlens p)
  rw [hmap, hlens k]
  exact flatMap_drop_take
    (fun r => flattenBlock (setupLocalSize nxg d.px (rankToCoords d r).1)
      (setupLocalSize nyg d.py (rankToCoords d r).2) (U (rankToCoords d r)))
    (d.px * d.py) k hk


/-- The rectangle of the global array that the placement loop writes for rank
`p` (the slice-assignment target of source line 283). -/
def ownsCell (nxg nyg : ℕ) (d : Dims) (p i j : ℕ) : Prop :=
  gatherStart nxg d.px (rankToCoords d p).1 ≤ i ∧
  i < gatherStart nxg d.px (rankToCoords d p).1 + gatherLocalSize nxg d.px (rankToCoords d p).1 ∧
  gatherStart nyg d.py (rankToCoords d p).2 ≤ j ∧
  j < gatherStart nyg d.py (rankToCoords d p).2 + gatherLocalSize nyg d.py (rankToCoords d p).2

lemma placeBlock_snd (nxg nyg : ℕ) (d : Dims) (data : List ℚ) (st : (ℕ → ℕ → ℚ) × ℕ) (p : ℕ) :
    (placeBlock nxg nyg d data st p).2 = st.2 + sizesOf nxg nyg d p := rfl

lemma reconLoop_succ (nxg nyg : ℕ) (d : Dims) (U : Coords → Field) (n : ℕ) :
    reconLoop nxg nyg d U (n+1) =
      placeBlock nxg nyg d (gatheredData nxg nyg d U) (reconLoop nxg nyg d U n) n := by
  unfold reconLoop
  rw [List.range_succ, List.foldl_append]
  rfl

lemma reconLoop_snd (nxg nyg : ℕ) (d : Dims) (U : Coords → Field) (k : ℕ) :
    (reconLoop nxg nyg d U k).2 = ((List.range k).map (sizesOf nxg nyg d)).sum := by
  induction k with
  | zero => rfl
  | succ n ih =>
    rw [reconLoop_succ, placeBlock_snd, ih, List.range_succ, List.map_append, List.sum_append]
    simp

lemma owns_unique (nxg nyg : ℕ) (d : Dims) {p q i j : ℕ}
    (hp : p < d.px * d.py) (hq : q < d.px * d.py)
    (hop : ownsCell nxg nyg d p i j) (hoq : ownsCell nxg nyg d q i j) : p = q := by
  by_contra hne
  have hpy : d.py ≠ 0 := by
    intro h
    rw [h, Nat.mul_zero] at hp
    omega
  have hcne : rankToCoords d p ≠ rankToCoords d q :=
    fun h => hne (rankToCoords_injOn d h hpy)
  unfold ownsCell at hop hoq
  simp only [gatherStart_eq, gatherLocalSize_eq] at hop hoq
  have hx : (rankToCoords d p).1 ≠ (rankToCoords d q).1 ∨
      (rankToCoords d p).2 ≠ (rankToCoords d q).2 := by
    by_contra hb
    push_neg at hb
    exact hcne (Prod.ext hb.1 hb.2)
  rcases hx with hx | hx
  · rcases Nat.lt_or_ge (rankToCoords d p).1 (rankToCoords d q).1 with hlt | hge
    · have := offset_add_size_le nxg d.px hlt
      omega
    · have hlt : (rankToCoords d q).1 < (rankToCoords d p).1 := by omega
      have := offset_add_size_le nxg d.px hlt
      omega
  · rcases Nat.lt_or_ge (rankToCoords d p).2 (rankToCoords d q).2 with hlt | hge
    · have := offset_add_size_le nyg d.py hlt
      omega
    · have hlt : (rankToCoords d q).2 < (rankToCoords d p).2 := by omega
      have := offset_add_size_le nyg d.py hlt
      omega

lemma reconLoop_correct (nxg nyg : ℕ) (d : Dims) (U : Coords → Field) {k p i j : ℕ}
    (hk : k ≤ d.px * d.py) (hp : p < k) (ho : ownsCell nxg nyg d p i j) :
    (reconLoop nxg nyg d U k).1 i j =
      U (rankToCoords d p) (i - gatherStart nxg d.px (rankToCoords d p).1 + 1)
        (j - gatherStart nyg d.py (rankToCoords d p).2 + 1) := by
  induction k with
  | zero => omega
  | succ n ih =>
    rw [reconLoop_succ]
    rcases Nat.lt_or_ge p n with hpn | hpn
    · have hnn : ¬ ownsCell nxg nyg d n i j := by
        intro hon
        have : p = n := owns_unique nxg nyg d (by omega) (by omega) ho hon
        omega
      unfold ownsCell at hnn
      show (if _ ∧ _ ∧ _ ∧ _ then _ else (reconLoop nxg nyg d U n).1 i j) = _
      rw [if_neg hnn]
      exact ih (by omega) hpn
    · have hpe : p = n := by omega
      subst hpe
      have ho' := ho
      unfold ownsCell at ho'
      show (if _ ∧ _ ∧ _ ∧ _ then
        ((gatheredData nxg nyg d U).drop (reconLoop nxg nyg d U p).2).take
          (sizesOf nxg nyg d p) |>.getD
            ((i - gatherStart nxg d.px (rankToCoords d p).1) *
                gatherLocalSize nyg d.py (rankToCoords d p).2 +
              (j - gatherStart nyg d.py (rankToCoords d p).2)) 0
        else (reconLoop nxg nyg d U p).1 i j) = _
      rw [if_pos ho', reconLoop_snd, gatheredData_extract nxg nyg d U (show p < d.px * d.py by omega)]
      have hpny : gatherLocalSize nyg d.py (rankToCoords d p).2 =
          setupLocalSize nyg d.py (rankToCoords d p).2 := by
        rw [gatherLocalSize_eq, setupLocalSize_eq]
      rw [hpny]
      have hax : i - gatherStart nxg d.px (rankToCoords d p).1 <
          setupLocalSize nxg d.px (rankToCoords d p).1 := by
        rw [setupLocalSize_eq, gatherStart_eq]
        simp only [gatherStart_eq, gatherLocalSize_eq] at ho'
        omega
      have hbx : j - gatherStart nyg d.py (rankToCoords d p).2 <
          setupLocalSize nyg d.py (rankToCoords d p).2 := by
        rw [setupLocalSize_eq, gatherStart_eq]
        simp only [gatherStart_eq, gatherLocalSize_eq] at ho'
        omega
      exact flattenBlock_getD _ _ _ hax hbx

/-- C2: on the coordinating rank 0 the gather returns an assembled
`(nx_global, ny_global)` array in which the interior block of the process at
Cartesian coordinates `(cx, cy)` occupies exactly the rows
`offset_x(cx) .. offset_x(cx) + nx_local - 1` and columns
`offset_y(cy) .. offset_y(cy) + ny_local - 1` of the section-4.2 offset
formula; every non-coordinating rank gets `None`; and with a single process
the local interior block is returned directly. -/
theorem gather_assembles_blocks (nxg nyg px py : ℕ) (U : Coords → Field)
    (cx cy a b : ℕ) (hpx : 1 ≤ px) (hpy : 1 ≤ py) (hcx : cx < px) (hcy : cy < py)
    (ha : a < local_size nxg px cx) (hb : b < local_size nyg py cy) :
    (∃ G, gatherGlobal nxg nyg ⟨px, py⟩ U 0 = some G ∧
      G (offset nxg px cx + a) (offset nyg py cy + b) = U (cx, cy) (a+1) (b+1)) ∧
    (∀ r, 0 < r → r < px * py → gatherGlobal nxg nyg ⟨px, py⟩ U r = none) ∧
    (px * py = 1 → gatherGlobal nxg nyg ⟨px, py⟩ U 0 = some (interiorView (U (0, 0)))) := by
  by_cases hsz : px * py = 1
  · have hpx1 : px = 1 := Nat.eq_one_of_mul_eq_one_right hsz
    have hpy1 : py = 1 := Nat.eq_one_of_mul_eq_one_left hsz
    subst hpx1
    subst hpy1
    have hcx0 : cx = 0 := by omega
    have hcy0 : cy = 0 := by omega
    subst hcx0
    subst hcy0
    refine ⟨⟨interiorView (U (rankToCoords ⟨1, 1⟩ 0)), ?_, ?_⟩, ?_, fun _ => ?_⟩
    · simp [gatherGlobal]
    · show U (rankToCoords ⟨1, 1⟩ 0) (offset nxg 1 0 + a + 1) (offset nyg 1 0 + b + 1) = _
      have h0 : offset nxg 1 0 = 0 := by simp [offset]
      have h0' : offset nyg 1 0 = 0 := by simp [offset]
      rw [h0, h0']
      simp [rankToCoords]
    · intro r hr hr'
      omega
    · simp [gatherGlobal, rankToCoords]
  · have hrtc : rankToCoords ⟨px, py⟩ (coordsToRank ⟨px, py⟩ (cx, cy)) = (cx, cy) :=
      rankToCoords_coordsToRank ⟨px, py⟩ (cx, cy) hcy
    have hrank : coordsToRank ⟨px, py⟩ (cx, cy) < px * py := by
      unfold coordsToRank
      calc cx * py + cy < cx * py + py := by omega
        _ = (cx + 1) * py := by ring
        _ ≤ px * py := Nat.mul_le_mul_right py hcx
    have ho : ownsCell nxg nyg ⟨px, py⟩ (coordsToRank ⟨px, py⟩ (cx, cy))
        (offset nxg px cx + a) (offset nyg py cy + b) := by
      unfold ownsCell
      rw [hrtc]
      simp only [gatherStart_eq, gatherLocalSize_eq]
      omega
    have hmain := reconLoop_correct nxg nyg ⟨px, py⟩ U (le_refl (px * py)) hrank ho
    refine ⟨⟨reconstructGlobal nxg nyg ⟨px, py⟩ U, ?_, ?_⟩, ?_, fun h => absurd h hsz⟩
    · unfold gatherGlobal
      rw [if_neg hsz, if_pos rfl]
    · show (reconLoop nxg nyg ⟨px, py⟩ U (px * py)).1 _ _ = _
      rw [hmain, hrtc]
      have e1 : offset nxg px cx + a - gatherStart nxg px cx = a := by
        rw [gatherStart_eq]
        omega
      have e2 : offset nyg py cy + b - gatherStart nyg py cy = b := by
        rw [gatherStart_eq]
        omega
      rw [e1, e2]
    · intro r hr hr'
      unfold gatherGlobal
      rw [if_neg hsz, if_neg (by omega)]

/-- A concrete distributed field used by the C2 witness. -/
def sampleU : Coords → Field := fun c i j => (c.1 : ℚ) * 100 + (i : ℚ) * 10 + (j : ℚ)

/-- Witness for C2 on a 2 x 1 process grid over a 2 x 2 global grid. -/
theorem gather_assembles_blocks_witness :
    (1 ≤ 2 ∧ 1 ≤ 1 ∧ 1 < 2 ∧ 0 < 1 ∧ 0 < local_size 2 2 1 ∧ 0 < local_size 2 1 0) ∧
    ((∃ G, gatherGlobal 2 2 ⟨2, 1⟩ sampleU 0 = some G ∧
      G (offset 2 2 1 + 0) (offset 2 1 0 + 0) = sampleU (1, 0) (0+1) (0+1)) ∧
    (∀ r, 0 < r → r < 2 * 1 → gatherGlobal 2 2 ⟨2, 1⟩ sampleU r = none) ∧
    (2 * 1 = 1 → gatherGlobal 2 2 ⟨2, 1⟩ sampleU 0 = some (interiorView (sampleU (0, 0))))) :=
  ⟨⟨by decide, by decide, by decide, by decide, by decide, by decide⟩,
    gather_assembles_blocks 2 2 2 1 sampleU 1 0 0 0
      (by decide) (by decide) (by decide) (by decide) (by decide) (by decide)⟩


end HeatMPI
